import Mathlib

/-!
Shallow embedding of the event-based PSHA calculator
(openquake/calculators/event_based.py) and proofs of the specified
properties of its reduction pipeline: the Bernoulli hazard-curve
accumulation, the GMF row-offset bookkeeping of agg_dicts, the
overflow checks, event sorting and expansion, rupture batching and
eid rewriting.
-/

namespace EventBased

/-! ## Hazard-curve accumulation (agg_dicts, lines 344-349)

The code updates, for each (realization, site, imt) key carried by a
task result, the accumulator array in place via
array[:] = 1. - (1. - array) * (1. - poes)
We model one probability cell as a real number and the per-realization
probability map as a function from cell keys (site/level pairs
collapsed to one natural key) to reals.  Machine floats are modelled
as exact reals. -/

/-- One Bernoulli exceedance update, from line 349 of event_based.py:
p is the current probability, poe the exceedance probability of the
incoming batch. -/
def bernoulli_update (p poe : ℝ) : ℝ := 1 - (1 - p) * (1 - poe)

/-- A probability map: cell key (site, imt-level collapsed) to probability. -/
def ProbMap : Type := ℕ → ℝ

/-- Fold one contribution (cell key, poe) into the probability map,
as agg_dicts does for one (r, sid, imt) key of a task result. -/
def applyContribution (m : ProbMap) (c : ℕ × ℝ) : ProbMap :=
  fun s => if s = c.1 then bernoulli_update (m s) c.2 else m s

/-- Fold a whole batch of contributions, in arrival order. -/
def foldContributions (m : ProbMap) (cs : List (ℕ × ℝ)) : ProbMap :=
  cs.foldl applyContribution m

theorem bernoulli_update_zero (p : ℝ) : bernoulli_update p 0 = p := by
  unfold bernoulli_update; ring

theorem bernoulli_update_comm (p a b : ℝ) :
    bernoulli_update (bernoulli_update p a) b
      = bernoulli_update (bernoulli_update p b) a := by
  unfold bernoulli_update; ring

theorem applyContribution_comm (m : ProbMap) (c d : ℕ × ℝ) :
    applyContribution (applyContribution m c) d
      = applyContribution (applyContribution m d) c := by
  funext s
  simp only [applyContribution]
  by_cases hc : s = c.1 <;> by_cases hd : s = d.1
  · simp only [if_pos hc, if_pos hd]
    exact bernoulli_update_comm _ _ _
  · simp only [if_pos hc, if_neg hd]
  · simp only [if_neg hc, if_pos hd]
  · simp only [if_neg hc, if_neg hd]

theorem foldContributions_perm (m : ProbMap) (l₁ l₂ : List (ℕ × ℝ))
    (h : l₁.Perm l₂) : foldContributions m l₁ = foldContributions m l₂ :=
  h.foldl_eq' (fun x _ y _ z => applyContribution_comm z x y) m

/-- C1: the hazard-curve accumulation of agg_dicts combines probabilities
as p' = 1 - (1-p)(1-poe); a zero contribution is the identity, and the
fold over any multiset of contributions is order-independent. -/
theorem agg_dicts_bernoulli_fold :
    (∀ p poe : ℝ, bernoulli_update p poe = 1 - (1 - p) * (1 - poe))
    ∧ (∀ (m : ProbMap) (s : ℕ), applyContribution m (s, 0) = m)
    ∧ (∀ (m : ProbMap) (c d : ℕ × ℝ),
        applyContribution (applyContribution m c) d
          = applyContribution (applyContribution m d) c)
    ∧ (∀ (m : ProbMap) (l₁ l₂ : List (ℕ × ℝ)), l₁.Perm l₂ →
        foldContributions m l₁ = foldContributions m l₂) := by
  refine ⟨fun _ _ => rfl, ?_, applyContribution_comm, foldContributions_perm⟩
  intro m s
  funext t
  unfold applyContribution
  by_cases h : t = s <;> simp [h, bernoulli_update_zero]

/-- Witness for C1 at a concrete map and a concrete pair of permuted
contribution lists. -/
theorem agg_dicts_bernoulli_fold_witness :
    foldContributions (fun _ => (0 : ℝ)) [(0, 1/2), (1, 1/3)]
      = foldContributions (fun _ => (0 : ℝ)) [(1, 1/3), (0, 1/2)] :=
  agg_dicts_bernoulli_fold.2.2.2 (fun _ => (0 : ℝ)) _ _
    (List.Perm.swap (1, 1/3) (0, 1/2) [])

/-! ## Overflow check (check_overflow, lines 373-391)

check_overflow reads the number of sites, of stored events and of IMTs
and raises a ValueError when one exceeds its bound (2^16 sites, 2^32
events, 2^8 imts); the dict iteration order is sites, events, imts. -/

/-- Embedding of EventBasedCalculator.check_overflow: the counts are
taken as inputs; a raised ValueError is an Except.error. -/
def check_overflow (sites events imts : ℕ) : Except String Unit :=
  if 2 ^ 16 < sites then
    Except.error "The event based calculator is restricted to 65536 sites"
  else if 2 ^ 32 < events then
    Except.error "The event based calculator is restricted to 4294967296 events"
  else if 2 ^ 8 < imts then
    Except.error "The event based calculator is restricted to 256 imts"
  else Except.ok ()

/-- C3: check_overflow returns normally exactly when the three counts are
at or below their bounds, and raises a ValueError exactly when some count
exceeds its bound. -/
theorem check_overflow_iff (sites events imts : ℕ) :
    (check_overflow sites events imts = Except.ok ()
      ↔ sites ≤ 2 ^ 16 ∧ events ≤ 2 ^ 32 ∧ imts ≤ 2 ^ 8)
    ∧ ((∃ e, check_overflow sites events imts = Except.error e)
      ↔ 2 ^ 16 < sites ∨ 2 ^ 32 < events ∨ 2 ^ 8 < imts) := by
  constructor
  · unfold check_overflow
    split_ifs <;> simp_all
  · unfold check_overflow
    split_ifs <;> simp_all

/-! ## GMF row bookkeeping (agg_dicts, lines 330-343)

When a task result carries GMF data, agg_dicts appends the rows to
gmf_data/data, records for every (sid, start, stop) triple of
result['indices'] the translated triple
(sid, start + self.offset, stop + self.offset), and only then advances
self.offset by len(data); when the advanced offset reaches 2^32 it
raises a RuntimeError. -/

/-- The GMF part of one task result: the batch-relative per-site index
triples (sid, start, stop) of result['indices'], and the number of rows
of result['gmfdata'] that the call appends to gmf_data/data. -/
structure GmfResult where
  indices : List (ℕ × ℕ × ℕ)
  nrows : ℕ
deriving DecidableEq

/-- The reducer state touched by the GMF branch of agg_dicts: the running
row offset self.offset and the global (sid, start, stop) triples
accumulated into self.indices. -/
structure AggState where
  offset : ℕ
  recorded : List (ℕ × ℕ × ℕ)
deriving DecidableEq

/-- Translate batch-relative triples by a global row offset, as in
lines 337-339 of agg_dicts. -/
def shiftTriples (off : ℕ) (ts : List (ℕ × ℕ × ℕ)) : List (ℕ × ℕ × ℕ) :=
  ts.map (fun t => (t.1, t.2.1 + off, t.2.2 + off))

/-- One agg_dicts reduction step on the GMF bookkeeping state: the
batch-relative ranges are translated by the pre-call offset and recorded,
then the offset advances by the number of appended rows. -/
def aggStep (st : AggState) (r : GmfResult) : AggState :=
  { offset := st.offset + r.nrows
    recorded := st.recorded ++ shiftTriples st.offset r.indices }

/-- A whole sequence of agg_dicts reduction calls, starting from offset 0. -/
def runAgg (rs : List GmfResult) : AggState := rs.foldl aggStep ⟨0, []⟩

/-- Global offset seen by the i-th reduction call: the rows appended by
the calls before it. -/
def offsetBefore (rs : List GmfResult) (i : ℕ) : ℕ :=
  (((rs.map GmfResult.nrows).take i)).sum

/-- The indices carried by the i-th call. -/
def indicesAt (rs : List GmfResult) (i : ℕ) : List (ℕ × ℕ × ℕ) :=
  (rs.getD i ⟨[], 0⟩).indices

/-- The global ranges contributed by the i-th call: its batch-relative
triples translated by its pre-call offset. -/
def callRanges (rs : List GmfResult) (i : ℕ) : List (ℕ × ℕ × ℕ) :=
  shiftTriples (offsetBefore rs i) (indicesAt rs i)

/-- All global ranges, call by call. -/
def globalRecorded (rs : List GmfResult) : List (ℕ × ℕ × ℕ) :=
  ((List.range rs.length).map (callRanges rs)).flatten

/-- Recorded triples of a run started at offset base, by recursion on the
calls. -/
def shiftedJoin (base : ℕ) : List GmfResult → List (ℕ × ℕ × ℕ)
  | [] => []
  | r :: rest => shiftTriples base r.indices ++ shiftedJoin (base + r.nrows) rest

/-- A well-formed task result: each batch-relative range lies within the
rows the task itself appended. -/
def wfResult (r : GmfResult) : Prop :=
  ∀ t ∈ r.indices, t.2.1 ≤ t.2.2 ∧ t.2.2 ≤ r.nrows

theorem offsetBefore_zero (rs : List GmfResult) : offsetBefore rs 0 = 0 := rfl

theorem offsetBefore_cons_succ (r : GmfResult) (rest : List GmfResult) (i : ℕ) :
    offsetBefore (r :: rest) (i + 1) = r.nrows + offsetBefore rest i := by
  simp [offsetBefore]

theorem indicesAt_cons_succ (r : GmfResult) (rest : List GmfResult) (i : ℕ) :
    indicesAt (r :: rest) (i + 1) = indicesAt rest i := rfl

theorem shiftedJoin_eq (rs : List GmfResult) : ∀ base : ℕ,
    shiftedJoin base rs
      = ((List.range rs.length).map
          (fun i => shiftTriples (base + offsetBefore rs i) (indicesAt rs i))).flatten := by
  induction rs with
  | nil => intro base; rfl
  | cons r rest ih =>
    intro base
    rw [shiftedJoin, List.length_cons, List.range_succ_eq_map]
    simp only [List.map_cons, List.flatten_cons, List.map_map]
    rw [ih (base + r.nrows)]
    have htail : List.map
        (fun i => shiftTriples (base + r.nrows + offsetBefore rest i) (indicesAt rest i))
        (List.range rest.length)
      = List.map
        ((fun i => shiftTriples (base + offsetBefore (r :: rest) i) (indicesAt (r :: rest) i))
          ∘ Nat.succ)
        (List.range rest.length) := by
      apply List.map_congr_left
      intro i _
      simp only [Function.comp_apply, offsetBefore_cons_succ, indicesAt_cons_succ]
      congr 1
      omega
    rw [htail]
    congr 1

theorem foldl_aggStep (rs : List GmfResult) : ∀ st : AggState,
    rs.foldl aggStep st
      = ⟨st.offset + (rs.map GmfResult.nrows).sum,
         st.recorded ++ shiftedJoin st.offset rs⟩ := by
  induction rs with
  | nil => intro st; simp [shiftedJoin]
  | cons r rest ih =>
    intro st
    rw [List.foldl_cons, ih]
    simp [aggStep, shiftedJoin, Nat.add_assoc]

theorem sum_take_mono : ∀ (ns : List ℕ) (i j : ℕ), i ≤ j →
    (ns.take i).sum ≤ (ns.take j).sum
  | _, 0, _, _ => by simp
  | [], _, _, _ => by simp
  | _ :: _, _ + 1, 0, h => absurd h (Nat.not_succ_le_zero _)
  | n :: ns, i + 1, j + 1, h => by
    simp only [List.take_succ_cons, List.sum_cons]
    exact Nat.add_le_add_left (sum_take_mono ns i j (Nat.le_of_succ_le_succ h)) n

theorem offsetBefore_le (rs : List GmfResult) {i j : ℕ} (h : i ≤ j) :
    offsetBefore rs i ≤ offsetBefore rs j :=
  sum_take_mono _ i j h

/-- Number of rows appended by the i-th call. -/
def nrowsAt (rs : List GmfResult) (i : ℕ) : ℕ :=
  (rs.getD i ⟨[], 0⟩).nrows

instance (r : GmfResult) : Decidable (wfResult r) :=
  inferInstanceAs (Decidable (∀ t ∈ r.indices, t.2.1 ≤ t.2.2 ∧ t.2.2 ≤ r.nrows))

theorem offsetBefore_succ (rs : List GmfResult) {i : ℕ} (hi : i < rs.length) :
    offsetBefore rs (i + 1) = offsetBefore rs i + nrowsAt rs i := by
  unfold offsetBefore nrowsAt
  have hlen : i < (rs.map GmfResult.nrows).length := by simpa using hi
  rw [List.take_succ, List.getElem?_eq_getElem hlen]
  simp [List.getD, List.getElem?_eq_getElem hi]

theorem getD_mem_of_lt (rs : List GmfResult) {i : ℕ} (hi : i < rs.length) :
    rs.getD i ⟨[], 0⟩ ∈ rs := by
  rw [List.getD_eq_getElem rs _ hi]
  exact List.getElem_mem hi

/-- C2: starting from offset 0, each agg_dicts call records global ranges
obtained by adding its pre-call offset to the batch-relative pairs, and
only then advances the offset by exactly the number of rows it appended;
for well-formed batches every recorded range lies within the block of
rows its own call appended, and ranges recorded by distinct calls are
disjoint. -/
theorem agg_dicts_offset_ranges (rs : List GmfResult)
    (hwf : ∀ r ∈ rs, wfResult r) :
    ((runAgg rs).offset = (rs.map GmfResult.nrows).sum)
    ∧ ((runAgg rs).recorded = globalRecorded rs)
    ∧ (∀ i, i < rs.length → ∀ tg ∈ callRanges rs i,
        offsetBefore rs i ≤ tg.2.1 ∧ tg.2.1 ≤ tg.2.2
          ∧ tg.2.2 ≤ offsetBefore rs i + nrowsAt rs i)
    ∧ (∀ i j, i < rs.length → j < rs.length → i < j →
        ∀ tg ∈ callRanges rs i, ∀ ug ∈ callRanges rs j,
          tg.2.2 ≤ ug.2.1) := by
  have hwfAt : ∀ i, i < rs.length → ∀ t ∈ indicesAt rs i,
      t.2.1 ≤ t.2.2 ∧ t.2.2 ≤ nrowsAt rs i := by
    intro i hi t ht
    exact hwf _ (getD_mem_of_lt rs hi) t ht
  refine ⟨?_, ?_, ?_, ?_⟩
  · rw [runAgg, foldl_aggStep]
    simp
  · rw [runAgg, foldl_aggStep]
    show [] ++ shiftedJoin 0 rs = globalRecorded rs
    rw [List.nil_append, shiftedJoin_eq rs 0, globalRecorded]
    congr 1
    apply List.map_congr_left
    intro i _
    rw [callRanges, Nat.zero_add]
  · intro i hi tg htg
    obtain ⟨t, ht, rfl⟩ := List.mem_map.1 htg
    have hb := hwfAt i hi t ht
    refine ⟨?_, ?_, ?_⟩
    · show offsetBefore rs i ≤ t.2.1 + offsetBefore rs i
      omega
    · show t.2.1 + offsetBefore rs i ≤ t.2.2 + offsetBefore rs i
      omega
    · show t.2.2 + offsetBefore rs i ≤ offsetBefore rs i + nrowsAt rs i
      omega
  · intro i j hi hj hij tg htg ug hug
    obtain ⟨t, ht, rfl⟩ := List.mem_map.1 htg
    obtain ⟨u, hu, rfl⟩ := List.mem_map.1 hug
    have hb := hwfAt i hi t ht
    have hstep : offsetBefore rs i + nrowsAt rs i ≤ offsetBefore rs j := by
      rw [← offsetBefore_succ rs hi]
      exact offsetBefore_le rs hij
    show t.2.2 + offsetBefore rs i ≤ u.2.1 + offsetBefore rs j
    omega

/-- A concrete pair of reduction calls used to witness the offset
invariant. -/
def sampleResults : List GmfResult :=
  [⟨[(0, 0, 2), (1, 2, 3)], 3⟩, ⟨[(0, 0, 1)], 1⟩]

/-- Witness for C2 at a concrete two-call reduction sequence. -/
theorem agg_dicts_offset_ranges_witness :
    ((runAgg sampleResults).offset = (sampleResults.map GmfResult.nrows).sum)
    ∧ ((runAgg sampleResults).recorded = globalRecorded sampleResults)
    ∧ (∀ i, i < sampleResults.length → ∀ tg ∈ callRanges sampleResults i,
        offsetBefore sampleResults i ≤ tg.2.1 ∧ tg.2.1 ≤ tg.2.2
          ∧ tg.2.2 ≤ offsetBefore sampleResults i + nrowsAt sampleResults i)
    ∧ (∀ i j, i < sampleResults.length → j < sampleResults.length → i < j →
        ∀ tg ∈ callRanges sampleResults i, ∀ ug ∈ callRanges sampleResults j,
          tg.2.2 ≤ ug.2.1) :=
  agg_dicts_offset_ranges sampleResults (by decide)

/-- The agg_dicts loop with its offset overflow guard (lines 340-343):
each call appends its rows, records its ranges, advances the offset, and
raises a RuntimeError when the advanced offset has reached 2^32. -/
def runAggCheckedFrom (st : AggState) : List GmfResult → Except String AggState
  | [] => Except.ok st
  | r :: rest =>
    if 2 ^ 32 ≤ (aggStep st r).offset then
      Except.error "The gmf_data table has more than 4294967296 rows"
    else runAggCheckedFrom (aggStep st r) rest

/-- A guarded reduction run from offset 0. -/
def runAggChecked (rs : List GmfResult) : Except String AggState :=
  runAggCheckedFrom ⟨0, []⟩ rs

theorem runAggCheckedFrom_spec (rs : List GmfResult) : ∀ st : AggState,
    st.offset < 2 ^ 32 →
    (st.offset + (rs.map GmfResult.nrows).sum < 2 ^ 32
       ∧ runAggCheckedFrom st rs = Except.ok (rs.foldl aggStep st))
    ∨ (2 ^ 32 ≤ st.offset + (rs.map GmfResult.nrows).sum
       ∧ ∃ e, runAggCheckedFrom st rs = Except.error e) := by
  induction rs with
  | nil =>
    intro st h
    left
    exact ⟨by simpa using h, rfl⟩
  | cons r rest ih =>
    intro st h
    rw [runAggCheckedFrom]
    by_cases hov : 2 ^ 32 ≤ (aggStep st r).offset
    · right
      refine ⟨?_, ⟨_, by rw [if_pos hov]⟩⟩
      simp only [aggStep] at hov
      simp only [List.map_cons, List.sum_cons]
      omega
    · rw [if_neg hov]
      have hlt : (aggStep st r).offset < 2 ^ 32 := Nat.lt_of_not_le hov
      rcases ih (aggStep st r) hlt with ⟨h1, h2⟩ | ⟨h1, h2⟩
      · left
        refine ⟨?_, h2⟩
        simp only [aggStep] at h1
        simp only [List.map_cons, List.sum_cons]
        omega
      · right
        refine ⟨?_, h2⟩
        simp only [aggStep] at h1
        simp only [List.map_cons, List.sum_cons]
        omega

/-- C4 (amended): the total number of GMF rows persisted across all
agg_dicts calls must stay strictly below 2^32; the guard raises exactly
when the accumulated row count reaches or exceeds 2^32. -/
theorem agg_dicts_row_overflow_guard (rs : List GmfResult) :
    (runAggChecked rs = Except.ok (runAgg rs)
       ↔ (rs.map GmfResult.nrows).sum < 2 ^ 32)
    ∧ ((∃ e, runAggChecked rs = Except.error e)
       ↔ 2 ^ 32 ≤ (rs.map GmfResult.nrows).sum) := by
  have h := runAggCheckedFrom_spec rs ⟨0, []⟩ (by norm_num)
  have hzero : (⟨0, []⟩ : AggState).offset = 0 := rfl
  rw [hzero, Nat.zero_add] at h
  rcases h with ⟨h1, h2⟩ | ⟨h1, h2⟩
  · refine ⟨⟨fun _ => h1, fun _ => h2⟩, ?_, fun hge => absurd h1 (Nat.not_lt.2 hge)⟩
    rintro ⟨e, he⟩
    rw [runAggChecked] at he
    rw [he] at h2
    cases h2
  · constructor
    · constructor
      · intro hok
        obtain ⟨e, he⟩ := h2
        rw [runAggChecked, he] at hok
        cases hok
      · intro hlt
        exact absurd hlt (Nat.not_lt.2 h1)
    · exact ⟨fun _ => h1, fun _ => h2⟩

/-- Counterexample to C4 as stated: a run whose total row count is
exactly 2^32 (it does not go beyond 2^32) nevertheless raises the
overflow error. -/
theorem agg_dicts_rows_error_at_two32 :
    ((([⟨[], 2 ^ 32⟩] : List GmfResult).map GmfResult.nrows).sum = 2 ^ 32)
    ∧ (∃ e, runAggChecked [⟨[], 2 ^ 32⟩] = Except.error e)
    ∧ ¬ 2 ^ 32 < 2 ^ 32 := by
  refine ⟨by simp, ⟨"The gmf_data table has more than 4294967296 rows", ?_⟩,
    Nat.lt_irrefl _⟩
  rfl

/-! ## Events (get_events lines 95-100, save_ruptures lines 355-371,
from_sources lines 284-290)

An event is one (rupture, realization) occurrence with a global event
id.  EBRupture.get_events and EBRupture.get_eids live in
openquake.hazardlib (outside src/); save_ruptures treats them as opaque
per-rupture outputs, so they are modelled as function parameters, and
where a claim depends on their behaviour the spec model is used. -/

/-- An event record: event id, rupture serial, realization index. -/
structure Event where
  eid : ℕ
  rup : ℕ
  rlz : ℕ
deriving DecidableEq

/-- The sampled-rupture data that save_ruptures reads. -/
structure EBRupture where
  serial : ℕ
  grp_id : ℕ
  n_occ : ℕ
deriving DecidableEq

/-- Embedding of get_events (lines 95-100): concatenate the per-rupture
event arrays; an empty rupture list gives the empty array. -/
def get_events (evFn : EBRupture → List Event) (rups : List EBRupture) :
    List Event :=
  (rups.map evFn).flatten

/-- Embedding of save_ruptures (lines 355-371): on a non-empty rupture
list, compute the events and the expected eid sequence, check they agree
(numpy.testing.assert_equal raises on mismatch), then append the events
to the events dataset and return them; on an empty list do nothing. -/
def save_ruptures (evFn : EBRupture → List Event) (eidFn : EBRupture → List ℕ)
    (events_ds : List Event) (rups : List EBRupture) :
    Except String (List Event × List Event) :=
  if rups.isEmpty then Except.ok (events_ds, [])
  else
    if (rups.map eidFn).flatten = (get_events evFn rups).map Event.eid then
      Except.ok (events_ds ++ get_events evFn rups, get_events evFn rups)
    else Except.error "saved eids do not match the expected eid sequence"

/-- C7: for every non-empty rupture list, save_ruptures succeeds exactly
when the eid sequence computed from the ruptures equals the eid field of
the expanded event records, in which case it appends the events to the
dataset and returns them; any mismatch is a fatal error. -/
theorem save_ruptures_checks_eids (evFn : EBRupture → List Event)
    (eidFn : EBRupture → List ℕ) (ds : List Event)
    (rups : List EBRupture) (hne : rups ≠ []) :
    (save_ruptures evFn eidFn ds rups
        = Except.ok (ds ++ get_events evFn rups, get_events evFn rups)
      ↔ (rups.map eidFn).flatten = (get_events evFn rups).map Event.eid)
    ∧ ((∃ e, save_ruptures evFn eidFn ds rups = Except.error e)
      ↔ (rups.map eidFn).flatten ≠ (get_events evFn rups).map Event.eid) := by
  unfold save_ruptures
  rw [if_neg (by simpa [List.isEmpty_iff] using hne)]
  by_cases h : (rups.map eidFn).flatten = (get_events evFn rups).map Event.eid
  · rw [if_pos h]
    refine ⟨⟨fun _ => h, fun _ => rfl⟩, ?_, fun hd => absurd h hd⟩
    rintro ⟨e, he⟩
    cases he
  · rw [if_neg h]
    refine ⟨⟨fun hok => ?_, fun h2 => absurd h2 h⟩, fun _ => h, fun _ => ⟨_, rfl⟩⟩
    cases hok

/-- Witness for C7 on a concrete one-rupture list with matching eids. -/
theorem save_ruptures_checks_eids_witness :
    (save_ruptures (fun r => [⟨5, r.serial, 0⟩]) (fun _ => [5]) []
          [⟨1, 0, 1⟩]
        = Except.ok ([] ++ get_events (fun r => [⟨5, r.serial, 0⟩]) [⟨1, 0, 1⟩],
            get_events (fun r => [⟨5, r.serial, 0⟩]) [⟨1, 0, 1⟩])
      ↔ (([⟨1, 0, 1⟩] : List EBRupture).map (fun _ => [5])).flatten
          = (get_events (fun r => [⟨5, r.serial, 0⟩]) [⟨1, 0, 1⟩]).map Event.eid)
    ∧ ((∃ e, save_ruptures (fun r => [⟨5, r.serial, 0⟩]) (fun _ => [5]) []
          [⟨1, 0, 1⟩] = Except.error e)
      ↔ (([⟨1, 0, 1⟩] : List EBRupture).map (fun _ => [5])).flatten
          ≠ (get_events (fun r => [⟨5, r.serial, 0⟩]) [⟨1, 0, 1⟩]).map Event.eid) :=
  save_ruptures_checks_eids (fun r => [⟨5, r.serial, 0⟩]) (fun _ => [5]) []
    [⟨1, 0, 1⟩] (by decide)

/-! ### Spec-modelled event expansion

Event id generation and per-rupture expansion live in
openquake.hazardlib (EBRupture.get_events / get_eids), outside src/. -/

/-- The realizations mapped to a group: the concatenation of the
realization lists of its GSIMs. -/
def rlzsOf (rlzs_by_gsim : List (List ℕ)) : List ℕ := rlzs_by_gsim.flatten

/-- num_rlzs as computed in save_ruptures (line 365): the sum of the
lengths of the realization lists. -/
def num_rlzs (rlzs_by_gsim : List (List ℕ)) : ℕ :=
  (rlzs_by_gsim.map List.length).sum

/-- One (rupture serial, realization) pair per (occurrence, realization). -/
def eventPairs (ebr : EBRupture) (rlzs_by_gsim : List (List ℕ)) :
    List (ℕ × ℕ) :=
  ((List.range ebr.n_occ).map
    (fun _ => (rlzsOf rlzs_by_gsim).map (fun r => (ebr.serial, r)))).flatten

/-- Modelled from the spec: the EventExpander (EBRupture.get_events in
openquake.hazardlib, not under src/) emits one event per (occurrence,
realization) pair for the realizations mapped to the rupture's group and
assigns eids by a monotonic counter advanced exactly once per emitted
event. -/
def spec_get_events (start : ℕ) (ebr : EBRupture)
    (rlzs_by_gsim : List (List ℕ)) : List Event :=
  (eventPairs ebr rlzs_by_gsim).enum.map
    (fun q => ⟨start + q.1, q.2.1, q.2.2⟩)

/-- Modelled from the spec: EBRupture.get_eids (openquake.hazardlib, not
under src/) returns the eid sequence of the events the rupture expands
to. -/
def spec_get_eids (start : ℕ) (ebr : EBRupture)
    (rlzs_by_gsim : List (List ℕ)) : List ℕ :=
  (spec_get_events start ebr rlzs_by_gsim).map Event.eid

theorem length_eventPairs (ebr : EBRupture) (rbg : List (List ℕ)) :
    (eventPairs ebr rbg).length = ebr.n_occ * num_rlzs rbg := by
  unfold eventPairs
  rw [List.length_flatten, List.map_map]
  have hc : (List.length ∘ fun _ : ℕ =>
      (rlzsOf rbg).map (fun r => (ebr.serial, r))) = fun _ => num_rlzs rbg := by
    funext _
    show (List.map (fun r : ℕ => (ebr.serial, r)) (rlzsOf rbg)).length = num_rlzs rbg
    simp [rlzsOf, num_rlzs, List.length_flatten]
    apply congrArg
    apply List.map_congr_left
    intro xs _
    simp
  rw [hc, List.map_const', List.length_range, List.sum_replicate, smul_eq_mul]

/-- C6: every rupture contributes n_occ × (number of realizations mapped
to its group) event records; in particular one rupture with n_occ = 3
under two realizations, saved through save_ruptures, yields exactly 6
events with eids 0..5. -/
theorem save_ruptures_event_count :
    (∀ (start : ℕ) (ebr : EBRupture) (rbg : List (List ℕ)),
      (spec_get_events start ebr rbg).length = ebr.n_occ * num_rlzs rbg)
    ∧ (save_ruptures (fun ebr => spec_get_events 0 ebr [[0], [1]])
        (fun ebr => spec_get_eids 0 ebr [[0], [1]]) [] [⟨7, 0, 3⟩]
      = Except.ok (spec_get_events 0 ⟨7, 0, 3⟩ [[0], [1]],
          spec_get_events 0 ⟨7, 0, 3⟩ [[0], [1]]))
    ∧ (spec_get_events 0 ⟨7, 0, 3⟩ [[0], [1]]).length = 6
    ∧ (spec_get_events 0 ⟨7, 0, 3⟩ [[0], [1]]).map Event.eid
        = [0, 1, 2, 3, 4, 5] := by
  refine ⟨?_, rfl, by decide, by decide⟩
  intro start ebr rbg
  unfold spec_get_events
  rw [List.length_map, List.enum_length]
  exact length_eventPairs ebr rbg

/-! ## Event reordering (from_sources, lines 284-290)

After all ruptures are stored, from_sources reads the events dataset,
sorts it in place by eid and writes it back. -/

/-- The eid order used to re-sort the events dataset (line 286,
evs.sort(order='eid')). -/
def eidLe (a b : Event) : Prop := a.eid ≤ b.eid

instance : DecidableRel eidLe := fun a b => Nat.decLe a.eid b.eid

instance : IsTotal Event eidLe := ⟨fun a b => Nat.le_total a.eid b.eid⟩

instance : IsTrans Event eidLe := ⟨fun _ _ _ h1 h2 => Nat.le_trans h1 h2⟩

/-- The event reordering performed at lines 284-287. -/
def sortEvents (evs : List Event) : List Event := List.insertionSort eidLe evs

/-- Modelled from the spec: the EventExpander (event id generation lives
in openquake.hazardlib, not under src/) assigns eids with a monotonic
counter advanced exactly once per emitted event, starting from 0; the
payloads are the (rupture serial, realization) pairs. -/
def assignEids (ps : List (ℕ × ℕ)) : List Event :=
  ps.enum.map (fun q => ⟨q.1, q.2.1, q.2.2⟩)

theorem assignEids_map_eid (ps : List (ℕ × ℕ)) :
    (assignEids ps).map Event.eid = List.range ps.length := by
  unfold assignEids
  rw [List.map_map]
  have hf : (Event.eid ∘ fun q : ℕ × ℕ × ℕ => Event.mk q.1 q.2.1 q.2.2)
      = Prod.fst := by
    funext q
    rfl
  rw [hf, List.enum_map_fst]

/-- C5: whatever completion order the scheduler produced the events in,
the dataset persisted by from_sources is that collection sorted in
ascending eid order, and its eid column is exactly 0..n-1: unique and
gap-free. -/
theorem from_sources_events_sorted (ps : List (ℕ × ℕ)) (produced : List Event)
    (h : produced.Perm (assignEids ps)) :
    (sortEvents produced).Perm produced
    ∧ List.Sorted eidLe (sortEvents produced)
    ∧ (sortEvents produced).map Event.eid = List.range ps.length
    ∧ ((sortEvents produced).map Event.eid).Nodup := by
  have hperm : (sortEvents produced).Perm produced :=
    List.perm_insertionSort eidLe produced
  have hsorted : List.Sorted eidLe (sortEvents produced) :=
    List.sorted_insertionSort eidLe produced
  have hmapperm : ((sortEvents produced).map Event.eid).Perm
      (List.range ps.length) := by
    rw [← assignEids_map_eid ps]
    exact (hperm.trans h).map Event.eid
  have hmapsorted : List.Sorted (· ≤ ·) ((sortEvents produced).map Event.eid) := by
    exact List.Pairwise.map Event.eid (fun {a b} hab => hab) hsorted
  have hrangesorted : List.Sorted (· ≤ ·) (List.range ps.length) :=
    List.Pairwise.imp Nat.le_of_lt (List.pairwise_lt_range ps.length)
  have heq : (sortEvents produced).map Event.eid = List.range ps.length :=
    List.eq_of_perm_of_sorted hmapperm hmapsorted hrangesorted
  exact ⟨hperm, hsorted, heq, heq ▸ List.nodup_range ps.length⟩

/-- Witness for C5: two events produced out of order are re-sorted into
the dense, unique eid sequence. -/
theorem from_sources_events_sorted_witness :
    (sortEvents [⟨1, 10, 0⟩, ⟨0, 10, 1⟩]).Perm [⟨1, 10, 0⟩, ⟨0, 10, 1⟩]
    ∧ List.Sorted eidLe (sortEvents [⟨1, 10, 0⟩, ⟨0, 10, 1⟩])
    ∧ (sortEvents [⟨1, 10, 0⟩, ⟨0, 10, 1⟩]).map Event.eid
        = List.range ([(10, 1), (10, 0)] : List (ℕ × ℕ)).length
    ∧ ((sortEvents [⟨1, 10, 0⟩, ⟨0, 10, 1⟩]).map Event.eid).Nodup :=
  from_sources_events_sorted [(10, 1), (10, 0)] [⟨1, 10, 0⟩, ⟨0, 10, 1⟩]
    (List.Perm.swap (⟨0, 10, 1⟩ : Event) (⟨1, 10, 0⟩ : Event) ([] : List Event))

/-! ## Rupture batching (build_ruptures, lines 74-92)

build_ruptures walks the sources in order, appends every source to the
open batch, adds the number of ruptures the source sampled to the
running count, and yields the batch as soon as the count exceeds
param['ruptures_per_block']; a final non-empty batch is yielded after
the loop. -/

/-- A source, represented by the number of eb_ruptures sampled from it
(len(dic['eb_ruptures']) at line 86). -/
structure Source where
  nrups : ℕ
deriving DecidableEq

/-- Total rupture count of a batch. -/
def batchRups (b : List Source) : ℕ := (b.map Source.nrups).sum

/-- The loop of build_ruptures: acc is the open batch, n the running
rupture count of that batch. -/
def build_ruptures_aux (budget : ℕ) :
    List Source → List Source → ℕ → List (List Source)
  | [], acc, _ => if acc.isEmpty then [] else [acc]
  | s :: rest, acc, n =>
    if budget < n + s.nrups then
      (acc ++ [s]) :: build_ruptures_aux budget rest [] 0
    else
      build_ruptures_aux budget rest (acc ++ [s]) (n + s.nrups)

/-- Embedding of build_ruptures: its yields, in order, starting from an
empty batch and a zero count. -/
def build_ruptures (budget : ℕ) (srcs : List Source) : List (List Source) :=
  build_ruptures_aux budget srcs [] 0

theorem build_ruptures_aux_flatten (budget : ℕ) :
    ∀ (srcs acc : List Source) (n : ℕ),
      (build_ruptures_aux budget srcs acc n).flatten = acc ++ srcs := by
  intro srcs
  induction srcs with
  | nil =>
    intro acc n
    rw [build_ruptures_aux]
    by_cases h : acc.isEmpty
    · rw [if_pos h]
      simp [List.isEmpty_iff.1 h]
    · rw [if_neg h]
      simp
  | cons s rest ih =>
    intro acc n
    rw [build_ruptures_aux]
    by_cases h : budget < n + s.nrups
    · rw [if_pos h]
      rw [List.flatten_cons, ih [] 0]
      simp
    · rw [if_neg h, ih (acc ++ [s]) (n + s.nrups)]
      simp

theorem build_ruptures_aux_nonempty (budget : ℕ) :
    ∀ (srcs acc : List Source) (n : ℕ),
      ∀ b ∈ build_ruptures_aux budget srcs acc n, b ≠ [] := by
  intro srcs
  induction srcs with
  | nil =>
    intro acc n b hb
    rw [build_ruptures_aux] at hb
    by_cases h : acc.isEmpty
    · rw [if_pos h] at hb
      cases hb
    · rw [if_neg h] at hb
      rcases List.mem_singleton.1 hb with rfl
      simpa [List.isEmpty_iff] using h
  | cons s rest ih =>
    intro acc n b hb
    rw [build_ruptures_aux] at hb
    by_cases h : budget < n + s.nrups
    · rw [if_pos h] at hb
      rcases List.mem_cons.1 hb with rfl | hb2
      · simp
      · exact ih [] 0 b hb2
    · rw [if_neg h] at hb
      exact ih (acc ++ [s]) (n + s.nrups) b hb

theorem build_ruptures_aux_dropLast (budget : ℕ) :
    ∀ (srcs acc : List Source) (n : ℕ), n = batchRups acc →
      ∀ b ∈ (build_ruptures_aux budget srcs acc n).dropLast,
        budget < batchRups b := by
  intro srcs
  induction srcs with
  | nil =>
    intro acc n _ b hb
    rw [build_ruptures_aux] at hb
    by_cases h : acc.isEmpty
    · rw [if_pos h] at hb
      cases hb
    · rw [if_neg h] at hb
      simp at hb
  | cons s rest ih =>
    intro acc n hn b hb
    rw [build_ruptures_aux] at hb
    by_cases h : budget < n + s.nrups
    · rw [if_pos h] at hb
      cases htail : build_ruptures_aux budget rest [] 0 with
      | nil =>
        rw [htail] at hb
        simp at hb
      | cons t ts =>
        rw [htail, List.dropLast_cons_of_ne_nil (by simp)] at hb
        rcases List.mem_cons.1 hb with rfl | hb2
        · have : batchRups (acc ++ [s]) = n + s.nrups := by
            simp [batchRups, hn]
          rw [this]
          exact h
        · have := ih [] 0 rfl b
          rw [htail] at this
          exact this hb2
    · rw [if_neg h] at hb
      refine ih (acc ++ [s]) (n + s.nrups) ?_ b hb
      simp [batchRups, hn]

/-- C9 (amended): build_ruptures flushes the open batch as soon as its
running rupture count exceeds ruptures_per_block, so every yielded batch
except possibly the last has rupture count strictly greater than the
budget; every source, including one that sampled zero ruptures, is
appended to the open batch and appears in exactly one yielded batch, all
yielded batches are non-empty, and only an empty source list yields no
batch. -/
theorem build_ruptures_batching (budget : ℕ) (srcs : List Source) :
    ((build_ruptures budget srcs).flatten = srcs)
    ∧ (∀ b ∈ (build_ruptures budget srcs).dropLast, budget < batchRups b)
    ∧ (∀ b ∈ build_ruptures budget srcs, b ≠ [])
    ∧ (build_ruptures budget [] = []) :=
  ⟨build_ruptures_aux_flatten budget srcs [] 0,
   build_ruptures_aux_dropLast budget srcs [] 0 rfl,
   build_ruptures_aux_nonempty budget srcs [] 0,
   rfl⟩

/-- Witness for C9 at a concrete budget and source list: the first batch
overruns the budget, the second is the final remainder. -/
theorem build_ruptures_batching_witness :
    ((build_ruptures 1 [⟨2⟩, ⟨1⟩]).flatten = [⟨2⟩, ⟨1⟩])
    ∧ (∀ b ∈ (build_ruptures 1 [⟨2⟩, ⟨1⟩]).dropLast, 1 < batchRups b)
    ∧ (∀ b ∈ build_ruptures 1 [⟨2⟩, ⟨1⟩], b ≠ [])
    ∧ (build_ruptures 1 [] = []) :=
  build_ruptures_batching 1 [⟨2⟩, ⟨1⟩]

/-- Counterexample to C9 as stated: a source that yields zero ruptures
still ends up inside a yielded batch (here the only source samples zero
ruptures and build_ruptures yields one batch containing it). -/
theorem build_ruptures_zero_rupture_source_batched :
    build_ruptures 1 [⟨0⟩] = [[⟨0⟩]]
    ∧ (⟨0⟩ : Source).nrups = 0
    ∧ build_ruptures 1 [⟨0⟩] ≠ [] :=
  ⟨rfl, rfl, by decide⟩

/-! ## Execute tail (lines 424-447)

After the parallel reduction, execute saves the accumulated per-site
index ranges; when none were accumulated and ground-motion fields were
requested, it raises a RuntimeError unless the calculation mode contains
"ucerf". -/

/-- Does pat occur at the head of s (character-wise). -/
def startsWithL : List Char → List Char → Bool
  | [], _ => true
  | _ :: _, [] => false
  | p :: ps, c :: cs => p == c && startsWithL ps cs

/-- The Python containment test pat in s on strings, as character
lists. -/
def containsSub (pat : List Char) : List Char → Bool
  | [] => pat.isEmpty
  | c :: cs => startsWithL pat (c :: cs) || containsSub pat cs

/-- The characters of "ucerf" (line 445 tests 'ucerf' not in
oq.calculation_mode). -/
def ucerfChars : List Char := String.toList "ucerf"

/-- The three possible outcomes of the tail of execute. -/
inductive ExecOutcome where
  | savedIndices
  | noGmfError
  | emptyResult
deriving DecidableEq

/-- The tail of EventBasedCalculator.execute (lines 424-447): when any
per-site indices were accumulated they are saved; otherwise, when
ground-motion fields were requested and the calculation mode does not
contain "ucerf", the fatal "No GMFs were generated" RuntimeError is
raised; otherwise the empty result is silent. -/
def execute_tail (indices : List (ℕ × ℕ × ℕ)) (gmf : Bool)
    (mode : List Char) : ExecOutcome :=
  if !indices.isEmpty then ExecOutcome.savedIndices
  else if gmf && !containsSub ucerfChars mode then ExecOutcome.noGmfError
  else ExecOutcome.emptyResult

/-- C8: execute raises the "No GMFs were generated" error exactly when no
per-site index ranges were accumulated, ground-motion-field output was
requested, and the calculation mode is not a ucerf variant; when indices
exist, or GMFs were not requested, or the mode contains "ucerf", no such
error is raised. -/
theorem execute_no_gmfs_error (indices : List (ℕ × ℕ × ℕ)) (gmf : Bool)
    (mode : List Char) :
    execute_tail indices gmf mode = ExecOutcome.noGmfError
      ↔ indices = [] ∧ gmf = true ∧ containsSub ucerfChars mode = false := by
  unfold execute_tail
  split_ifs with h1 h2 <;> simp_all [List.isEmpty_iff]

/-! ## eid rewriting (replace_eid lines 50-58, eid2idx lines 457-461)

Before appending gmf rows, agg_dicts rewrites their eid column through
the eid2idx dictionary, turning 64-bit event ids into positions in the
eid-sorted events dataset. -/

/-- One gmf_data row: realization id, site id, event id, ground-motion
values (abstracted). -/
structure GmfRow where
  rlzi : ℕ
  sid : ℕ
  eid : ℕ
  gmv : ℕ
deriving DecidableEq

/-- numpy.unique of the eid column: its distinct values in ascending
order. -/
def npUnique (l : List ℕ) : List ℕ :=
  List.insertionSort (fun a b => a ≤ b) l.dedup

/-- Embedding of replace_eid (lines 50-58): numpy.unique factors the eid
column through its sorted distinct values and the inverse index array,
and the column is rewritten as numpy.array([eid2idx[e] for e in
uniq])[inv]; row i therefore receives the mapped value sitting at the
position of its original eid in uniq. -/
def replace_eid (rows : List GmfRow) (eid2idx : ℕ → ℕ) : List GmfRow :=
  let uniq := npUnique (rows.map GmfRow.eid)
  let mapped := uniq.map eid2idx
  rows.map (fun r => { r with eid := mapped.getD (uniq.indexOf r.eid) 0 })

/-- Embedding of the eid2idx cached property (lines 457-461):
dict(zip(eids, arange(len(eids)))) looked up at e; for the
duplicate-free eid column of the events dataset this is the position of
e in the dataset. -/
def eid2idx (eids : List ℕ) (e : ℕ) : ℕ := eids.indexOf e

theorem mem_npUnique {l : List ℕ} {x : ℕ} : x ∈ npUnique l ↔ x ∈ l := by
  unfold npUnique
  rw [List.mem_insertionSort, List.mem_dedup]

theorem getD_map_indexOf {l : List ℕ} {x : ℕ} (f : ℕ → ℕ) (h : x ∈ l) :
    (l.map f).getD (l.indexOf x) 0 = f x := by
  have hlt : l.indexOf x < l.length := List.indexOf_lt_length.2 h
  have hlt2 : l.indexOf x < (l.map f).length := by simpa using hlt
  rw [List.getD_eq_getElem?_getD, List.getElem?_eq_getElem hlt2,
    Option.getD_some, List.getElem_map, List.getElem_indexOf hlt]

/-- C10: replace_eid rewrites each row's eid field to eid2idx applied to
its original value and changes nothing else; composed with the eid2idx
dictionary built from the (duplicate-free) eid column of the eid-sorted
events dataset, each row ends up carrying the position of its event in
that dataset. -/
theorem replace_eid_rewrites (rows : List GmfRow) (f : ℕ → ℕ) :
    (replace_eid rows f = rows.map (fun r => { r with eid := f r.eid }))
    ∧ ((replace_eid rows f).length = rows.length)
    ∧ (∀ eids : List ℕ, eids.Nodup → ∀ i, i < eids.length →
        eid2idx eids (eids.getD i 0) = i) := by
  have hmain : replace_eid rows f
      = rows.map (fun r => { r with eid := f r.eid }) := by
    simp only [replace_eid]
    apply List.map_congr_left
    intro r hr
    have hmem : r.eid ∈ npUnique (rows.map GmfRow.eid) :=
      mem_npUnique.2 (List.mem_map_of_mem GmfRow.eid hr)
    rw [getD_map_indexOf f hmem]
  refine ⟨hmain, by rw [hmain, List.length_map], ?_⟩
  intro eids hnd i hi
  unfold eid2idx
  rw [List.getD_eq_getElem?_getD, List.getElem?_eq_getElem hi,
    Option.getD_some]
  exact List.indexOf_getElem hnd i hi

/-- Witness for C10: the theorem applied to a concrete row list and a
concrete duplicate-free eid column. -/
theorem replace_eid_rewrites_witness :
    eid2idx [5, 3, 9] ([5, 3, 9].getD 1 0) = 1 :=
  (replace_eid_rewrites [⟨0, 0, 5, 7⟩] (eid2idx [5, 3, 9])).2.2
    [5, 3, 9] (by decide) 1 (by decide)

end EventBased
